import Mathlib

/-!
Verification of the poe2-log-viewer ingestion-and-categorization pipeline.

The frontend (`src/App.tsx`, `src/components/*`) is embedded directly.  The
Rust backend (`src-tauri/src/main.rs`, `src-tauri/src/log_categorizer.rs`) is
not part of the repository snapshot; the definitions that stand in for it are
modelled from the specification (and from the Rust code reproduced verbatim in
`plan.md`) and say so in their doc comments.  Strings are modelled at the
character level (`List Char`); machine strings are ASCII in every log the
program handles, so Rust byte lengths and char counts coincide here.
-/

/-- The apostrophe character (code point 39). -/
def apos : Char := Char.ofNat 39

/-- The ASCII fragment of Rust `char::is_whitespace` (the Unicode White_Space
property restricted to ASCII): tab, line feed, vertical tab (U+000B), form
feed (U+000C), carriage return and space. -/
def isWS (c : Char) : Bool :=
  c == ' ' || c == '\t' || c == '\n' || c == Char.ofNat 11 || c == Char.ofNat 12 || c == '\r'

/-- Both-ends trim on character lists (Rust `str::trim`). -/
def trimList (l : List Char) : List Char :=
  ((l.dropWhile isWS).reverse.dropWhile isWS).reverse

/-- Split at the first occurrence of `sep`: `some (before, after)` when `sep`
occurs (Rust `str::find` plus slicing), `none` otherwise. -/
def splitFirst (sep : Char) : List Char → Option (List Char × List Char)
  | [] => none
  | c :: t =>
    if c = sep then some ([], t)
    else match splitFirst sep t with
      | none => none
      | some (a, b) => some (c :: a, b)

/-- JavaScript `String.prototype.split(sep)` for a one-character separator:
always returns at least one (possibly empty) piece. -/
def splitOnChar (sep : Char) : List Char → List (List Char)
  | [] => [[]]
  | c :: t =>
    match splitOnChar sep t with
    | [] => [[]]
    | h :: r => if c = sep then [] :: h :: r else (c :: h) :: r

/-- Decimal value of a digit run (most significant first). -/
def natFromDigits (l : List Char) : Nat :=
  l.foldl (fun a c => a * 10 + (c.toNat - 48)) 0

/- ## `isNewerVersion` (src/App.tsx, lines 98-115)

`isNewerVersion(latest, current)` splits both strings on ".", maps
`parseInt(_, 10)` over the pieces, and walks indices `0 ..
max(len,len) - 1`, reading a missing or falsy (NaN, 0) entry as `0`:
the first index where the entries differ decides the result. -/

/-- JavaScript `parseInt(s, 10)`: skip leading whitespace, optional sign,
then the longest leading digit run; `none` models NaN (no digits). -/
def jsParseInt (l : List Char) : Option Int :=
  let m := l.dropWhile isWS
  match m with
  | [] => none
  | c :: t =>
    if c = '+' then (jsParseInt.digitsVal t).map Int.ofNat
    else if c = '-' then (jsParseInt.digitsVal t).map (fun n => -(n : Int))
    else (jsParseInt.digitsVal (c :: t)).map Int.ofNat
where
  /-- The longest leading digit run, or `none` when there is none. -/
  digitsVal (t : List Char) : Option Nat :=
    let d := t.takeWhile Char.isDigit
    if d.isEmpty then none else some (natFromDigits d)

/-- `parseVersion` of src/App.tsx composed with the loop's `|| 0` coercion:
`v.split(".").map((n) => parseInt(n, 10))` with NaN read as 0. -/
def parseVersionNums (v : String) : List Int :=
  (splitOnChar '.' v.data).map (fun s => (jsParseInt s).getD 0)

/-- The comparison loop of `isNewerVersion` when the first list is exhausted:
remaining entries of the first argument read as 0. -/
def zeroGt : List Int → Bool
  | [] => false
  | y :: t => if 0 > y then true else if 0 < y then false else zeroGt t

/-- The comparison loop of `isNewerVersion`: first index (missing entries read
as 0) where the sides differ decides; all-equal gives `false`. -/
def lexGt : List Int → List Int → Bool
  | [], ys => zeroGt ys
  | x :: xs, [] => if x > 0 then true else if x < 0 then false else lexGt xs []
  | x :: xs, y :: ys => if x > y then true else if x < y then false else lexGt xs ys

/-- `isNewerVersion` of src/App.tsx. -/
def isNewerVersion (latest current : String) : Bool :=
  lexGt (parseVersionNums latest) (parseVersionNums current)

/-- Reading an integer sequence at an index, missing entries read as 0 (the
JS loop's `parts[i] || 0` for an index past the end). -/
def getZ : List Int → Nat → Int
  | [], _ => 0
  | x :: _, 0 => x
  | _ :: t, i + 1 => getZ t i

/-- Lexicographic strict order on integer sequences padded with zeros: some
position holds a strictly larger entry on the left while all earlier
positions agree. -/
def specLexGt (xs ys : List Int) : Prop :=
  ∃ i, (∀ j < i, getZ xs j = getZ ys j) ∧ getZ ys i < getZ xs i

/- ## The dialogue heuristic (plan.md, `is_valid_dialogue` and helpers)

plan.md reproduces the Rust replacement for the hardcoded-NPC dialogue
detector in full; the definitions below transcribe it.  `str::trim`,
`char::is_whitespace`, `is_alphanumeric`, `is_uppercase` are taken at their
ASCII fragments (the characters in these logs). -/

/-- The reserved system words of `is_valid_speaker_name` (plan.md line 288). -/
def forbiddenSpeakerWords : List String :=
  ["Has", "Is", "Been", "Now", "Level", "Client", "Server"]

/-- `is_valid_speaker_name` of plan.md: non-empty, at most 100 long, first
character uppercase, not starting with a reserved word, and every character
alphanumeric, whitespace, apostrophe, hyphen or comma. -/
def is_valid_speaker_name (name : List Char) : Bool :=
  if name.isEmpty || decide (name.length > 100) then false
  else if !((name.head?.map Char.isUpper).getD false) then false
  else if forbiddenSpeakerWords.any (fun kw => kw.data.isPrefixOf name) then false
  else name.all (fun c => c.isAlphanum || isWS c || c == apos || c == '-' || c == ',')

/-- `is_valid_dialogue_text` of plan.md: non-empty, at most 500 long, letter
count not below half the length (integer division), not bracket-wrapped. -/
def is_valid_dialogue_text (text : List Char) : Bool :=
  if text.isEmpty || decide (text.length > 500) then false
  else if decide (text.countP (fun c => c.isAlpha) < text.length / 2) then false
  else if text.head? == some '[' || text.getLast? == some ']' then false
  else true

/-- `is_valid_dialogue` of plan.md: split at the first colon, validate the
trimmed speaker and the trimmed dialogue text; no colon rejects. -/
def is_valid_dialogue (message : List Char) : Bool :=
  match splitFirst ':' message with
  | some (sp, dp) =>
    let speaker_part := trimList sp
    let dialogue_part := trimList dp
    if !is_valid_speaker_name speaker_part then false
    else if !is_valid_dialogue_text dialogue_part then false
    else true
  | none => false

/-- The dialogue heuristic on machine strings. -/
def looksLikeDialogue (s : String) : Bool := is_valid_dialogue s.data

/-- The acceptance condition exactly as the claim words it (for comparison
with `is_valid_dialogue`): speaker characters restricted to letters, digits,
the space character, apostrophes, hyphens and commas, and at least half of
the utterance characters alphabetic (`2 * letters ≥ length`). -/
def dialogueClaimOriginal (message : List Char) : Bool :=
  match splitFirst ':' message with
  | none => false
  | some (sp, dp) =>
    let speaker := trimList sp
    let utter := trimList dp
    (!speaker.isEmpty) && decide (speaker.length ≤ 100)
      && ((speaker.head?.map Char.isUpper).getD false)
      && speaker.all (fun c => c.isAlpha || c.isDigit || c == ' ' || c == apos || c == '-' || c == ',')
      && (!(forbiddenSpeakerWords.any (fun kw => kw.data.isPrefixOf speaker)))
      && (!utter.isEmpty) && decide (utter.length ≤ 500)
      && decide (utter.length ≤ 2 * utter.countP (fun c => c.isAlpha))
      && (!(utter.head? == some '[')) && (!(utter.getLast? == some ']'))

/-- The chat channels of spec §3 and plan.md §1.2 (`enum ChatChannel`). -/
inductive ChatChannel
  | Global | Local | Guild | GuildSystem | Whisper
deriving DecidableEq

/-- The closed category tag set of spec §3. -/
inductive Category
  | Death | LevelUp | Skill | Dialogue | Chat (ch : ChatChannel) | GuildSystem
  | ItemFilter | Network | Graphics | Engine | Audio | Warning | Unknown
deriving DecidableEq

/-- Left-only trim (whitespace after the structural `:` separator). -/
def trimLeft (l : List Char) : List Char := l.dropWhile isWS

/-- Modelled from the spec: `parseChatPrefix` of §4.3 (the `parse_chat_channel`
of plan.md §1.2); the Rust `log_categorizer.rs` that implements it is not in
the repository snapshot.  `$Name: text` → Global, `#Name: text` → Local,
`&: text` → GuildSystem (no sender), `&Name: text` → Guild,
`@From Name: text` → Whisper; anything else is not chat. -/
def parse_chat_channel : List Char → Option (ChatChannel × Option (List Char) × List Char)
  | [] => none
  | c :: rest =>
    if c = '$' then
      match splitFirst ':' rest with
      | some (name, t) =>
        if name.isEmpty then none else some (ChatChannel.Global, some name, trimLeft t)
      | none => none
    else if c = '#' then
      match splitFirst ':' rest with
      | some (name, t) =>
        if name.isEmpty then none else some (ChatChannel.Local, some name, trimLeft t)
      | none => none
    else if c = '&' then
      match splitFirst ':' rest with
      | some (name, t) =>
        if name.isEmpty then some (ChatChannel.GuildSystem, none, trimLeft t)
        else some (ChatChannel.Guild, some name, trimLeft t)
      | none => none
    else if c = '@' then
      if ("From ").data.isPrefixOf rest then
        match splitFirst ':' (rest.drop 5) with
        | some (name, t) =>
          if name.isEmpty then none else some (ChatChannel.Whisper, some name, trimLeft t)
        | none => none
      else none
    else none

/-- The character class `[A-Za-z_\d]` of the death-extraction regex. -/
def isNameChar (c : Char) : Bool := c.isAlpha || c.isDigit || c == '_'

/-- `extract_player_name_from_death` of plan.md §2.1: the regex
`^: ([A-Za-z_\d]+) has been slain` — a leading `: `, a maximal non-empty run
of name characters, then the literal ` has been slain`. -/
def extract_player_name_from_death : List Char → Option (List Char)
  | [] => none
  | [_] => none
  | c1 :: c2 :: rest =>
    if c1 = ':' then
      if c2 = ' ' then
        let name := rest.takeWhile isNameChar
        if name.isEmpty then none
        else if (" has been slain").data.isPrefixOf (rest.drop name.length) then some name
        else none
      else none
    else none

/-- A classification outcome together with its extracted fields. -/
structure Extracted where
  category : Category
  playerName : Option (List Char)
  chatSender : Option (List Char)
  content : List Char
deriving DecidableEq

/-- Modelled from the spec: the fragment of the categorizer the chat/death/
dialogue claims exercise (`log_categorizer.rs` is not in the snapshot).  Chat
prefix extraction short-circuits first (§4.3), then the Death pattern, then
the dialogue heuristic; a line matching nothing falls back to Unknown. -/
def classifyModel (message : List Char) : Extracted :=
  match parse_chat_channel message with
  | some (ChatChannel.GuildSystem, s, c) => ⟨Category.GuildSystem, none, s, c⟩
  | some (ch, s, c) => ⟨Category.Chat ch, none, s, c⟩
  | none =>
    match extract_player_name_from_death message with
    | some n => ⟨Category.Death, some n, none, message⟩
    | none =>
      if is_valid_dialogue message then ⟨Category.Dialogue, none, none, message⟩
      else ⟨Category.Unknown, none, none, message⟩

/-- `LogEvent` of src/App.tsx lines 10-15 (the frontend view of an event). -/
structure LogEvent where
  timestamp : String
  category : String
  message : String
  raw : String
deriving DecidableEq

/-- The frontend state `handleLogEvent` touches: the `processedLogIds` ref
(a set, modelled as a list up to membership) and the `logs` array. -/
structure FrontendState where
  processedLogIds : List String
  logs : List LogEvent
deriving DecidableEq

/-- The dedup key of src/App.tsx lines 149-151:
`timestamp + "-" + category + "-" + message.substring(0, 50)`. -/
def mkLogId (e : LogEvent) : String :=
  e.timestamp ++ "-" ++ e.category ++ "-" ++ (e.message.take 50)

/-- `handleLogEvent` of src/App.tsx lines 147-161: drop the event when its
key is already in `processedLogIds`, otherwise remember the key and append
the event to `logs`. -/
def handleLogEvent (st : FrontendState) (e : LogEvent) : FrontendState :=
  let logId := mkLogId e
  if logId ∈ st.processedLogIds then st
  else ⟨logId :: st.processedLogIds, st.logs ++ [e]⟩

/-- The state reset of `pickFile` (src/App.tsx lines 204-207): `setLogs([])`
and `processedLogIds.current.clear()` before the new watch starts. -/
def pickFileReset (_st : FrontendState) : FrontendState := ⟨[], []⟩

/-- Delivering a stream of events to `handleLogEvent` in order. -/
def processEvents (st : FrontendState) (evs : List LogEvent) : FrontendState :=
  evs.foldl handleLogEvent st

/-- The fragment of JSON the event payload uses. -/
inductive Json
  | str : String → Json
  | num : Nat → Json
  | null : Json
deriving DecidableEq

def jsonIsNull : Json → Bool
  | Json.null => true
  | _ => false

namespace Plan

/-- The extended `LogEvent` struct of plan.md §3.1: four required fields and
five optional extracted fields, each marked
`#[serde(skip_serializing_if = "Option::is_none")]`. -/
structure LogEvent where
  timestamp : String
  category : String
  message : String
  raw : String
  player_name : Option String
  character_class : Option String
  level : Option Nat
  chat_channel : Option String
  chat_sender : Option String
deriving DecidableEq

end Plan

/-- One optional serde field: present iff the value is `some`. -/
def optField (k : String) : Option Json → List (String × Json)
  | some v => [(k, v)]
  | none => []

/-- Modelled from the spec: the serde serialization of `Plan.LogEvent` (the
emitting `main.rs` is not in the snapshot); `skip_serializing_if =
"Option::is_none"` omits an absent optional field instead of writing null. -/
def serializeLogEvent (e : Plan.LogEvent) : List (String × Json) :=
  [("timestamp", Json.str e.timestamp), ("category", Json.str e.category),
   ("message", Json.str e.message), ("raw", Json.str e.raw)]
  ++ optField "player_name" (e.player_name.map Json.str)
  ++ optField "character_class" (e.character_class.map Json.str)
  ++ optField "level" (e.level.map Json.num)
  ++ optField "chat_channel" (e.chat_channel.map Json.str)
  ++ optField "chat_sender" (e.chat_sender.map Json.str)

/-- Modelled from the spec: the `WatchSession` state of §3 — read cursor,
size+mtime fingerprint, dedup key set (the watcher in `main.rs` is not in
the snapshot).  The cursor is in line units here; the byte arithmetic of the
real cursor is below this embedding's granularity. -/
structure WatchSession where
  cursor : Nat
  fpSize : Nat
  fpMtime : Nat
  dedupKeys : List String
deriving DecidableEq

/-- A point-in-time view of the watched file. -/
structure FileState where
  size : Nat
  mtime : Nat
  lines : List String
deriving DecidableEq

/-- Modelled from the spec: truncation (`size < cursor`) or a fingerprint
change inconsistent with pure appension (the size shrank below the stored
fingerprint size), §4.1. -/
def sessionInconsistent (s : WatchSession) (f : FileState) : Bool :=
  decide (f.size < s.cursor) || decide (f.size < s.fpSize)

/-- Modelled from the spec: the pre-read step of each poll — on truncation or
rotation, reset the cursor to 0 and clear the dedup set (§4.1). -/
def pollPrepare (s : WatchSession) (f : FileState) : WatchSession :=
  if sessionInconsistent s f then ⟨0, f.size, f.mtime, []⟩ else s

/-- Reading from the stored cursor to the end of the file. -/
def readFromCursor (s : WatchSession) (f : FileState) : List String :=
  f.lines.drop s.cursor

/-- Modelled from the spec: the deduplicator's pass over a key stream — a key
already seen is suppressed, a fresh key is emitted and remembered (§4.4). -/
def dedupRun (seen : List String) : List String → List String × List String
  | [] => ([], seen)
  | k :: t =>
    if k ∈ seen then dedupRun seen t
    else
      let p := dedupRun (k :: seen) t
      (k :: p.1, p.2)

/-- The severity levels of spec §3. -/
inductive LogLevel
  | INFO | WARN | ERROR | CRIT | unknown
deriving DecidableEq

/-- `ParsedLine` of spec §3; every structured field has a zero value for the
degraded case. -/
structure ParsedLine where
  timestamp : String
  monotonicCounter : Nat
  threadId : String
  level : LogLevel
  sourceTag : String
  processId : Nat
  systemTag : Option String
  message : String
deriving DecidableEq

def isDigitOrSlash (c : Char) : Bool := c.isDigit || c == '/'

def isDigitOrColon (c : Char) : Bool := c.isDigit || c == ':'

def joinSpaces : List (List Char) → List Char
  | [] => []
  | [w] => w
  | w :: r => w ++ ' ' :: joinSpaces r

def levelOf (s : List Char) : LogLevel :=
  if s = ("INFO").data then LogLevel.INFO
  else if s = ("WARN").data then LogLevel.WARN
  else if s = ("ERROR").data then LogLevel.ERROR
  else if s = ("CRIT").data then LogLevel.CRIT
  else LogLevel.unknown

def findCloser : List (List Char) → Option (List (List Char) × List (List Char))
  | [] => none
  | w :: r =>
    if w.getLast? == some ']' then some ([w], r)
    else
      match findCloser r with
      | some (tag, rest) => some (w :: tag, rest)
      | none => none

/-- Modelled from the spec: the fixed-shape recognizer of §4.2,
`DATE TIME COUNTER THREADID [LEVEL SOURCE PID] [SYSTEMTAG] MESSAGE` (the
parser in `main.rs` is not in the snapshot).  `none` when the line deviates
from the token shape; the optional bracketed system tag may span words and
further bracketed tags stay in the message verbatim. -/
def tryParse (raw : String) : Option ParsedLine :=
  match splitOnChar ' ' raw.data with
  | date :: time :: counter :: thread :: lvl :: src :: pid :: rest =>
    if date.isEmpty || !(date.all isDigitOrSlash) then none
    else if time.isEmpty || !(time.all isDigitOrColon) then none
    else if counter.isEmpty || !(counter.all Char.isDigit) then none
    else if thread.isEmpty || !(thread.all Char.isAlphanum) then none
    else if !(lvl.head? == some '[') then none
    else if src.isEmpty then none
    else if !(pid.getLast? == some ']') then none
    else if pid.dropLast.isEmpty || !(pid.dropLast.all Char.isDigit) then none
    else
      let tagged :=
        match rest with
        | w :: _ =>
          if w.head? == some '[' then
            match findCloser rest with
            | some (tagWords, remaining) => (some (String.mk (joinSpaces tagWords)), remaining)
            | none => (none, rest)
          else (none, rest)
        | [] => (none, rest)
      some ⟨String.mk (date ++ ' ' :: time), natFromDigits counter, String.mk thread,
        levelOf (lvl.drop 1), String.mk src, natFromDigits pid.dropLast,
        tagged.1, String.mk (joinSpaces tagged.2)⟩
  | _ => none

/-- Modelled from the spec: the total parser of §4.2 — on any deviation every
structured field keeps its zero value and the whole raw line becomes
`message`; there is no error channel. -/
def parse (raw : String) : ParsedLine :=
  match tryParse raw with
  | some p => p
  | none => ⟨"", 0, "", LogLevel.unknown, "", 0, none, raw⟩

/-- Modelled from the spec: `CategoryRule` of §3 (`CategoryPatterns` of
`log_categorizer.rs`, which is not in the snapshot) — name, priority,
required/excluded/anyOf substring patterns and an optional validator. -/
structure CategoryRule where
  name : String
  priority : Int
  required : List String
  excluded : List String
  anyOf : List String
  validator : Option (String → Bool)

/-- Substring occurrence on character lists. -/
def listIsInfix (pat : List Char) : List Char → Bool
  | [] => pat.isEmpty
  | c :: t => pat.isPrefixOf (c :: t) || listIsInfix pat t

/-- A pattern is present in a message when it occurs as a substring. -/
def containsPat (msg pat : String) : Bool := listIsInfix pat.data msg.data

/-- Modelled from the spec: a rule matches when every `required` pattern is
present, no `excluded` pattern is present, at least one `anyOf` pattern is
present if that list is non-empty, and the validator (when set) accepts
(§4.3). -/
def ruleMatches (r : CategoryRule) (msg : String) : Bool :=
  r.required.all (fun p => containsPat msg p)
  && !(r.excluded.any (fun p => containsPat msg p))
  && (r.anyOf.isEmpty || r.anyOf.any (fun p => containsPat msg p))
  && (match r.validator with | none => true | some f => f msg)

/-- Rules paired with their declaration positions. -/
def decorate : Nat → List CategoryRule → List (Nat × CategoryRule)
  | _, [] => []
  | i, r :: t => (i, r) :: decorate (i + 1) t

/-- The evaluation order of §3: ascending priority, ties broken by
declaration order. -/
def engOrder (a b : Nat × CategoryRule) : Prop :=
  a.2.priority < b.2.priority ∨ (a.2.priority = b.2.priority ∧ a.1 ≤ b.1)

instance : DecidableRel engOrder := fun a b =>
  inferInstanceAs (Decidable (a.2.priority < b.2.priority ∨ (a.2.priority = b.2.priority ∧ a.1 ≤ b.1)))

instance : IsTotal (Nat × CategoryRule) engOrder :=
  ⟨by intro a b; unfold engOrder; omega⟩

instance : IsTrans (Nat × CategoryRule) engOrder :=
  ⟨by intro a b c hab hbc; unfold engOrder at hab hbc ⊢; omega⟩

def sortedRules (rules : List CategoryRule) : List (Nat × CategoryRule) :=
  List.insertionSort engOrder (decorate 0 rules)

/-- Modelled from the spec: the engine walks the rules in `engOrder` and the
first match names the category; no match falls back to Unknown (§4.3). -/
def classify (rules : List CategoryRule) (msg : String) : String :=
  match (sortedRules rules).find? (fun p => ruleMatches p.2 msg) with
  | some p => p.2.name
  | none => "Unknown"

/-- A two-rule engine used to evaluate `classify` at a concrete input. -/
def wRuleDeath : CategoryRule := ⟨"Death", 10, ["slain"], [], [], none⟩

def wRuleNetwork : CategoryRule := ⟨"Network", 5, ["Connected"], [], [], none⟩

/-! ## Theorems -/

theorem bool_ext {a b : Bool} (h : a = true ↔ b = true) : a = b := by
  cases a <;> cases b <;> simp_all

theorem getZ_nil (i : Nat) : getZ [] i = 0 := by cases i <;> rfl

theorem specLexGt_cons_shift {x y : Int} {xs ys : List Int} (hxy : x = y) :
    specLexGt (x :: xs) (y :: ys) ↔ specLexGt xs ys := by
  constructor
  · rintro ⟨i, hpre, hi⟩
    rcases i with _ | i
    · simp only [getZ] at hi; omega
    · exact ⟨i, fun j hj => hpre (j + 1) (by omega), hi⟩
  · rintro ⟨i, hpre, hi⟩
    refine ⟨i + 1, ?_, hi⟩
    intro j hj
    rcases j with _ | j
    · simpa [getZ] using hxy
    · exact hpre j (by omega)

theorem specLexGt_cons_head {x y : Int} {xs ys : List Int} (hxy : y < x) :
    specLexGt (x :: xs) (y :: ys) :=
  ⟨0, by omega, hxy⟩

theorem specLexGt_cons_not {x y : Int} {xs ys : List Int} (hxy : x < y) :
    ¬ specLexGt (x :: xs) (y :: ys) := by
  rintro ⟨i, hpre, hi⟩
  rcases i with _ | i
  · simp only [getZ] at hi; omega
  · have := hpre 0 (Nat.succ_pos _)
    simp only [getZ] at this; omega

theorem getZ_nil_pad (i : Nat) : getZ ([] : List Int) i = getZ [0] i := by
  cases i <;> simp [getZ, getZ_nil]

theorem specLexGt_congr {a a2 b b2 : List Int}
    (ha : ∀ i, getZ a i = getZ a2 i) (hb : ∀ i, getZ b i = getZ b2 i) :
    specLexGt a b ↔ specLexGt a2 b2 := by
  unfold specLexGt
  apply exists_congr
  intro i
  constructor
  · rintro ⟨hpre, hi⟩
    exact ⟨fun j hj => by rw [← ha, ← hb]; exact hpre j hj, by rw [← ha, ← hb]; exact hi⟩
  · rintro ⟨hpre, hi⟩
    exact ⟨fun j hj => by rw [ha, hb]; exact hpre j hj, by rw [ha, hb]; exact hi⟩

theorem specLexGt_nil_nil : ¬ specLexGt [] [] := by
  rintro ⟨i, _, hi⟩
  omega

theorem true_iff_prop {p : Prop} (h : p) : (true = true ↔ p) :=
  ⟨fun _ => h, fun _ => rfl⟩

theorem false_iff_prop {p : Prop} (h : ¬p) : (false = true ↔ p) :=
  ⟨fun ht => absurd ht (by simp), fun hp => absurd hp h⟩

theorem zeroGt_iff (ys : List Int) : zeroGt ys = true ↔ specLexGt [] ys := by
  induction ys with
  | nil =>
    unfold zeroGt
    exact false_iff_prop specLexGt_nil_nil
  | cons y t ih =>
    rw [specLexGt_congr getZ_nil_pad (fun i => rfl)]
    unfold zeroGt
    rcases lt_trichotomy y 0 with hlt | heq | hgt
    · rw [if_pos (by omega)]
      exact true_iff_prop (specLexGt_cons_head hlt)
    · rw [if_neg (by omega), if_neg (by omega), ih,
        specLexGt_cons_shift heq.symm]
    · rw [if_neg (by omega), if_pos hgt]
      exact false_iff_prop (specLexGt_cons_not hgt)

theorem lexGt_iff (xs : List Int) : ∀ ys, lexGt xs ys = true ↔ specLexGt xs ys := by
  induction xs with
  | nil =>
    intro ys
    unfold lexGt
    exact zeroGt_iff ys
  | cons x xs ih =>
    intro ys
    cases ys with
    | nil =>
      unfold lexGt
      rw [specLexGt_congr (fun i => rfl) getZ_nil_pad]
      rcases lt_trichotomy x 0 with hlt | heq | hgt
      · rw [if_neg (by omega), if_pos hlt]
        exact false_iff_prop (specLexGt_cons_not hlt)
      · rw [if_neg (by omega), if_neg (by omega), ih [],
          specLexGt_cons_shift heq]
      · rw [if_pos hgt]
        exact true_iff_prop (specLexGt_cons_head hgt)
    | cons y t =>
      unfold lexGt
      rcases lt_trichotomy x y with hlt | heq | hgt
      · rw [if_neg (by omega), if_pos hlt]
        exact false_iff_prop (specLexGt_cons_not hlt)
      · rw [if_neg (by omega), if_neg (by omega), ih t,
          specLexGt_cons_shift heq]
      · rw [if_pos hgt]
        exact true_iff_prop (specLexGt_cons_head hgt)

theorem specLexGt_asymm {xs ys : List Int} (h1 : specLexGt xs ys) (h2 : specLexGt ys xs) : False := by
  obtain ⟨i, hpre, hi⟩ := h1
  obtain ⟨k, kpre, hk⟩ := h2
  rcases lt_trichotomy i k with h | h | h
  · have := kpre i h
    omega
  · subst h; omega
  · have := hpre k h
    omega

theorem lexGt_irrefl (xs : List Int) : lexGt xs xs = false := by
  cases h : lexGt xs xs
  · rfl
  · obtain ⟨i, _, hi⟩ := (lexGt_iff xs xs).mp h
    omega

theorem getZ_append_zero (xs : List Int) : ∀ j, getZ (xs ++ [0]) j = getZ xs j := by
  induction xs with
  | nil => intro j; cases j <;> simp [getZ, getZ_nil]
  | cons x t ih => intro j; cases j <;> simp [getZ, ih]

theorem specLexGt_append_zero_left (xs ys : List Int) :
    specLexGt (xs ++ [0]) ys ↔ specLexGt xs ys :=
  specLexGt_congr (getZ_append_zero xs) (fun _ => rfl)

theorem specLexGt_append_zero_right (xs ys : List Int) :
    specLexGt xs (ys ++ [0]) ↔ specLexGt xs ys :=
  specLexGt_congr (fun _ => rfl) (getZ_append_zero ys)

theorem splitOnChar_ne_nil (sep : Char) (l : List Char) : splitOnChar sep l ≠ [] := by
  cases l with
  | nil => simp [splitOnChar]
  | cons c t =>
    unfold splitOnChar
    cases h : splitOnChar sep t with
    | nil => simp
    | cons h0 r =>
      by_cases hcs : c = sep <;> simp [hcs]

theorem splitOnChar_append_sep (sep c0 : Char) (hc : c0 ≠ sep) (xs : List Char) :
    splitOnChar sep (xs ++ [sep, c0]) = splitOnChar sep xs ++ [[c0]] := by
  induction xs with
  | nil =>
    simp [splitOnChar, hc]
  | cons c t ih =>
    obtain ⟨h0, r, h⟩ := List.exists_cons_of_ne_nil (splitOnChar_ne_nil sep t)
    have lhs : splitOnChar sep (c :: t ++ [sep, c0])
        = match splitOnChar sep (t ++ [sep, c0]) with
          | [] => [[]]
          | h :: r => if c = sep then [] :: h :: r else (c :: h) :: r := rfl
    have rhs : splitOnChar sep (c :: t)
        = match splitOnChar sep t with
          | [] => [[]]
          | h :: r => if c = sep then [] :: h :: r else (c :: h) :: r := rfl
    rw [lhs, rhs, ih, h]
    by_cases hcs : c = sep <;> simp [hcs]

theorem string_data_append (s t : String) : (s ++ t).data = s.data ++ t.data := by
  cases s; cases t; rfl

theorem parseVersionNums_append_zero (a : String) :
    parseVersionNums (a ++ ".0") = parseVersionNums a ++ [0] := by
  unfold parseVersionNums
  rw [string_data_append]
  have hdata : (".0" : String).data = ['.', '0'] := rfl
  rw [hdata, splitOnChar_append_sep '.' '0' (by decide)]
  simp [jsParseInt, jsParseInt.digitsVal, natFromDigits, isWS]

/-- C10: `isNewerVersion` splits on ".", converts segments with `parseInt`
(missing and non-numeric segments read as 0), and returns true exactly when
the first argument's zero-padded numeric sequence is lexicographically
greater than the second's; it is irreflexive and asymmetric, and trailing
".0" segments do not change the result. -/
theorem isNewerVersion_spec :
    (∀ a b : String, isNewerVersion a b = true ↔
        specLexGt (parseVersionNums a) (parseVersionNums b))
    ∧ (∀ v : String, isNewerVersion v v = false)
    ∧ (∀ a b : String, (isNewerVersion a b && isNewerVersion b a) = false)
    ∧ (∀ a b : String,
        isNewerVersion (a ++ ".0") b = isNewerVersion a b
        ∧ isNewerVersion a (b ++ ".0") = isNewerVersion a b) := by
  refine ⟨fun a b => lexGt_iff _ _, fun v => lexGt_irrefl _, ?_, ?_⟩
  · intro a b
    cases h1 : isNewerVersion a b with
    | false => rfl
    | true =>
      cases h2 : isNewerVersion b a with
      | false => rfl
      | true =>
        exact (specLexGt_asymm ((lexGt_iff _ _).mp h1) ((lexGt_iff _ _).mp h2)).elim
  · intro a b
    constructor
    · apply bool_ext
      unfold isNewerVersion
      rw [lexGt_iff, lexGt_iff, parseVersionNums_append_zero,
        specLexGt_append_zero_left]
    · apply bool_ext
      unfold isNewerVersion
      rw [lexGt_iff, lexGt_iff, parseVersionNums_append_zero,
        specLexGt_append_zero_right]

/-! ## Dialogue heuristic theorems -/

theorem splitFirst_eq_none {sep : Char} : ∀ {l : List Char}, sep ∉ l → splitFirst sep l = none := by
  intro l hl
  induction l with
  | nil => rfl
  | cons c t ih =>
    unfold splitFirst
    rw [if_neg (by intro h; exact hl (h ▸ List.mem_cons_self c t)),
      ih (fun h => hl (List.mem_cons_of_mem c h))]

theorem alphanum_split (c : Char) : c.isAlphanum = (c.isAlpha || c.isDigit) := rfl

theorem speaker_char_iff (c : Char) :
    (c.isAlphanum || isWS c || c == apos || c == '-' || c == ',') = true
      ↔ (c.isAlpha = true ∨ c.isDigit = true ∨ isWS c = true ∨ c = apos ∨ c = '-' ∨ c = ',') := by
  simp [alphanum_split, Bool.or_eq_true, beq_iff_eq]
  tauto

theorem is_valid_speaker_name_iff (n : List Char) :
    is_valid_speaker_name n = true ↔
      n ≠ [] ∧ n.length ≤ 100
      ∧ (∃ c rest, n = c :: rest ∧ c.isUpper = true)
      ∧ (∀ c ∈ n, c.isAlpha = true ∨ c.isDigit = true ∨ isWS c = true ∨ c = apos ∨ c = '-' ∨ c = ',')
      ∧ (∀ kw ∈ forbiddenSpeakerWords, ¬ kw.data <+: n) := by
  unfold is_valid_speaker_name
  split_ifs with h1 h2 h3
  · simp only [Bool.or_eq_true, decide_eq_true_eq, List.isEmpty_iff] at h1
    simp only [false_iff]
    rintro ⟨hne, hlen, -⟩
    rcases h1 with h | h
    · exact hne h
    · omega
  · simp only [Bool.not_eq_true'] at h2
    simp only [false_iff]
    rintro ⟨-, -, ⟨c, rest, hn, hu⟩, -⟩
    subst hn
    simp at h2
    simp [h2] at hu
  · simp only [false_iff]
    rintro ⟨-, -, -, -, hforb⟩
    simp only [List.any_eq_true] at h3
    obtain ⟨kw, hkw, hpre⟩ := h3
    exact hforb kw hkw (by simpa using hpre)
  · simp only [Bool.or_eq_true, decide_eq_true_eq, List.isEmpty_iff] at h1
    push_neg at h1
    obtain ⟨hne, hlen⟩ := h1
    simp only [Bool.not_eq_true', Bool.not_eq_false] at h2
    simp only [List.any_eq_true] at h3
    push_neg at h3
    rw [List.all_eq_true]
    constructor
    · intro hall
      refine ⟨hne, by omega, ?_, ?_, ?_⟩
      · cases n with
        | nil => exact absurd rfl hne
        | cons c rest => exact ⟨c, rest, rfl, by simpa using h2⟩
      · intro c hc
        exact (speaker_char_iff c).mp (hall c hc)
      · intro kw hkw
        have := h3 kw hkw
        simpa using this
    · rintro ⟨-, -, -, hall, -⟩
      intro c hc
      exact (speaker_char_iff c).mpr (hall c hc)

theorem is_valid_dialogue_text_iff (t : List Char) :
    is_valid_dialogue_text t = true ↔
      t ≠ [] ∧ t.length ≤ 500
      ∧ t.length / 2 ≤ t.countP (fun c => c.isAlpha)
      ∧ t.head? ≠ some '[' ∧ t.getLast? ≠ some ']' := by
  unfold is_valid_dialogue_text
  split_ifs with h1 h2 h3
  · simp only [Bool.or_eq_true, decide_eq_true_eq, List.isEmpty_iff] at h1
    simp only [false_iff]
    rintro ⟨hne, hlen, -⟩
    rcases h1 with h | h
    · exact hne h
    · omega
  · simp only [decide_eq_true_eq] at h2
    simp only [false_iff]
    rintro ⟨-, -, hcount, -⟩
    omega
  · simp only [Bool.or_eq_true, beq_iff_eq] at h3
    simp only [false_iff]
    rintro ⟨-, -, -, hh, hl⟩
    rcases h3 with h | h
    · exact hh h
    · exact hl h
  · simp only [Bool.or_eq_true, decide_eq_true_eq, List.isEmpty_iff] at h1
    push_neg at h1
    simp only [decide_eq_true_eq] at h2
    push_neg at h2
    simp only [Bool.or_eq_true, beq_iff_eq] at h3
    push_neg at h3
    simp only [true_iff]
    exact ⟨h1.1, by omega, by omega, h3.1, h3.2⟩

theorem chain_two (a b : Bool) :
    (if !a then false else if !b then false else true) = true ↔ a = true ∧ b = true := by
  cases a <;> cases b <;> simp

theorem looksLikeDialogue_iff (m : String) :
    looksLikeDialogue m = true ↔
      ∃ sp dp, splitFirst ':' m.data = some (sp, dp)
        ∧ is_valid_speaker_name (trimList sp) = true
        ∧ is_valid_dialogue_text (trimList dp) = true := by
  unfold looksLikeDialogue is_valid_dialogue
  cases h : splitFirst ':' m.data with
  | none => simp
  | some pair =>
    obtain ⟨sp, dp⟩ := pair
    simp only [chain_two, Option.some.injEq, Prod.mk.injEq]
    constructor
    · rintro ⟨hs, hd⟩
      exact ⟨sp, dp, ⟨rfl, rfl⟩, hs, hd⟩
    · rintro ⟨sp2, dp2, ⟨h1, h2⟩, hs, hd⟩
      subst h1; subst h2
      exact ⟨hs, hd⟩

/-- C1 (counterexample): the message `Ab\tC: ab123` contains a colon; its
speaker part holds a tab (not a space) and its utterance has 2 alphabetic
characters out of 5 (fewer than half), so the claim as stated rejects it,
yet `is_valid_dialogue` accepts it (Rust `is_whitespace` admits the tab and
the letter-count check is `letters ≥ ⌊length/2⌋ = 2`). -/
theorem dialogue_claim_counterexample :
    looksLikeDialogue "Ab\tC: ab123" = true
    ∧ dialogueClaimOriginal ("Ab\tC: ab123").data = false :=
  ⟨by decide, by decide⟩

/-- C1 (amended): `looksLikeDialogue` accepts a message iff it has a colon
and, at the split at the first colon, the trimmed speaker is non-empty, at
most 100 long, starts with an uppercase letter, consists of letters, digits,
whitespace in the sense of Rust `is_whitespace` (in ASCII: space, tab, line
feed, vertical tab, form feed or carriage return — not just the space
character), apostrophes, hyphens and commas, and does not start with a
reserved word; and the trimmed utterance is non-empty, at most 500 long, has
at least ⌊length/2⌋ alphabetic characters, and neither starts with `[` nor
ends with `]`.  A message with no colon is always rejected; no fixed speaker
list occurs in the condition. -/
theorem dialogue_heuristic_spec :
    (∀ m : String, looksLikeDialogue m = true ↔
      ∃ sp dp, splitFirst ':' m.data = some (sp, dp)
        ∧ trimList sp ≠ [] ∧ (trimList sp).length ≤ 100
        ∧ (∃ c rest, trimList sp = c :: rest ∧ c.isUpper = true)
        ∧ (∀ c ∈ trimList sp,
            c.isAlpha = true ∨ c.isDigit = true ∨ isWS c = true ∨ c = apos ∨ c = '-' ∨ c = ',')
        ∧ (∀ kw ∈ forbiddenSpeakerWords, ¬ kw.data <+: trimList sp)
        ∧ trimList dp ≠ [] ∧ (trimList dp).length ≤ 500
        ∧ (trimList dp).length / 2 ≤ (trimList dp).countP (fun c => c.isAlpha)
        ∧ (trimList dp).head? ≠ some '[' ∧ (trimList dp).getLast? ≠ some ']')
    ∧ (∀ m : String, ':' ∉ m.data → looksLikeDialogue m = false) := by
  constructor
  · intro m
    rw [looksLikeDialogue_iff]
    apply exists_congr; intro sp
    apply exists_congr; intro dp
    constructor
    · rintro ⟨he, hs, hd⟩
      obtain ⟨a1, a2, a3, a4, a5⟩ := (is_valid_speaker_name_iff _).mp hs
      obtain ⟨b1, b2, b3, b4, b5⟩ := (is_valid_dialogue_text_iff _).mp hd
      exact ⟨he, a1, a2, a3, a4, a5, b1, b2, b3, b4, b5⟩
    · rintro ⟨he, a1, a2, a3, a4, a5, b1, b2, b3, b4, b5⟩
      exact ⟨he, (is_valid_speaker_name_iff _).mpr ⟨a1, a2, a3, a4, a5⟩,
        (is_valid_dialogue_text_iff _).mpr ⟨b1, b2, b3, b4, b5⟩⟩
  · intro m hm
    unfold looksLikeDialogue is_valid_dialogue
    rw [splitFirst_eq_none hm]

theorem splitFirst_append_sep (sep : Char) :
    ∀ (name rest : List Char), sep ∉ name →
      splitFirst sep (name ++ sep :: rest) = some (name, rest) := by
  intro name rest h
  induction name with
  | nil =>
    rw [List.nil_append]
    unfold splitFirst
    rw [if_pos rfl]
  | cons c t ih =>
    have hcs : c ≠ sep := fun hcc => h (hcc ▸ List.mem_cons_self c t)
    show splitFirst sep (c :: (t ++ sep :: rest)) = _
    unfold splitFirst
    rw [if_neg hcs, ih (fun hm => h (List.mem_cons_of_mem c hm))]

theorem trimLeft_space_cons {text : List Char} (h : text.dropWhile isWS = text) :
    trimLeft (' ' :: text) = text := by
  have hws : isWS ' ' = true := by decide
  simp [trimLeft, List.dropWhile_cons, hws, h]

theorem isEmpty_false_of_ne {l : List Char} (h : l ≠ []) : l.isEmpty = false := by
  cases l with
  | nil => exact absurd rfl h
  | cons a t => rfl

/-- C2: every chat-prefixed message classifies to its chat category with the
stated sender and content extraction — `$Name:` to Chat(Global), `#Name:` to
Chat(Local), `&:` to GuildSystem with no sender, `&Name:` to Chat(Guild),
`@From Name:` to Chat(Whisper) — and a message with any parsed chat prefix is
never classified Dialogue; the prefix check is anchored at the first
character and runs before the dialogue heuristic in `classifyModel`. -/
theorem chat_prefix_classification
    (name text : List Char) (hname : name ≠ []) (hcol : ':' ∉ name)
    (htext : text.dropWhile isWS = text) :
    classifyModel ('$' :: (name ++ ':' :: ' ' :: text))
        = ⟨Category.Chat ChatChannel.Global, none, some name, text⟩
    ∧ classifyModel ('#' :: (name ++ ':' :: ' ' :: text))
        = ⟨Category.Chat ChatChannel.Local, none, some name, text⟩
    ∧ classifyModel ('&' :: (name ++ ':' :: ' ' :: text))
        = ⟨Category.Chat ChatChannel.Guild, none, some name, text⟩
    ∧ classifyModel ('&' :: ':' :: ' ' :: text)
        = ⟨Category.GuildSystem, none, none, text⟩
    ∧ classifyModel ('@' :: 'F' :: 'r' :: 'o' :: 'm' :: ' ' :: (name ++ ':' :: ' ' :: text))
        = ⟨Category.Chat ChatChannel.Whisper, none, some name, text⟩
    ∧ (∀ m ch s c, parse_chat_channel m = some (ch, s, c) →
        (classifyModel m).category ≠ Category.Dialogue) := by
  have hni : name.isEmpty = false := isEmpty_false_of_ne hname
  have htl : trimLeft (' ' :: text) = text := trimLeft_space_cons htext
  have hsp : splitFirst ':' (name ++ ':' :: ' ' :: text) = some (name, ' ' :: text) :=
    splitFirst_append_sep ':' name (' ' :: text) hcol
  refine ⟨?_, ?_, ?_, ?_, ?_, ?_⟩
  · have hp : parse_chat_channel ('$' :: (name ++ ':' :: ' ' :: text))
        = some (ChatChannel.Global, some name, text) := by
      simp [parse_chat_channel, hsp, hni, hname, htl]
    simp [classifyModel, hp]
  · have hp : parse_chat_channel ('#' :: (name ++ ':' :: ' ' :: text))
        = some (ChatChannel.Local, some name, text) := by
      simp [parse_chat_channel, hsp, hni, hname, htl]
    simp [classifyModel, hp]
  · have hp : parse_chat_channel ('&' :: (name ++ ':' :: ' ' :: text))
        = some (ChatChannel.Guild, some name, text) := by
      simp [parse_chat_channel, hsp, hni, hname, htl]
    simp [classifyModel, hp]
  · have hp : parse_chat_channel ('&' :: ':' :: ' ' :: text)
        = some (ChatChannel.GuildSystem, none, text) := by
      have hsp0 : splitFirst ':' (':' :: ' ' :: text) = some ([], ' ' :: text) := by
        unfold splitFirst
        rw [if_pos rfl]
      simp [parse_chat_channel, hsp0, htl]
    simp [classifyModel, hp]
  · have hdrop : List.drop 5 ('F' :: 'r' :: 'o' :: 'm' :: ' ' :: (name ++ ':' :: ' ' :: text))
        = name ++ ':' :: ' ' :: text := rfl
    have hp : parse_chat_channel ('@' :: 'F' :: 'r' :: 'o' :: 'm' :: ' ' :: (name ++ ':' :: ' ' :: text))
        = some (ChatChannel.Whisper, some name, text) := by
      simp [parse_chat_channel, hdrop, hsp, hni, hname, htl]
    simp [classifyModel, hp]
  · intro m ch s c hp
    simp only [classifyModel, hp]
    cases ch <;> simp

theorem takeWhile_append_stop (p : Char → Bool) (c : Char) (hc : p c = false) :
    ∀ (X S : List Char), (∀ a ∈ X, p a = true) →
      (X ++ c :: S).takeWhile p = X := by
  intro X S hX
  induction X with
  | nil => simp [List.takeWhile_cons, hc]
  | cons a t ih =>
    have ha : p a = true := hX a (List.mem_cons_self a t)
    simp only [List.cons_append, List.takeWhile_cons, ha, if_true]
    rw [ih (fun b hb => hX b (List.mem_cons_of_mem a hb))]

/-- C5: for every non-empty name X over letters, digits and underscores, the
message `: X has been slain.` classifies as Death and the extraction carries
`playerName = X`. -/
theorem death_extraction_spec (X : List Char) (hne : X ≠ [])
    (hchars : ∀ c ∈ X, isNameChar c = true) :
    extract_player_name_from_death (':' :: ' ' :: (X ++ (" has been slain.").data)) = some X
    ∧ (classifyModel (':' :: ' ' :: (X ++ (" has been slain.").data))).category = Category.Death
    ∧ (classifyModel (':' :: ' ' :: (X ++ (" has been slain.").data))).playerName = some X := by
  have hsplit : (" has been slain.").data = ' ' :: ("has been slain.").data := by decide
  have hnc : isNameChar ' ' = false := by decide
  have htake : ((X ++ (" has been slain.").data).takeWhile isNameChar) = X := by
    rw [hsplit]
    exact takeWhile_append_stop isNameChar ' ' hnc X _ hchars
  have hpre : ((" has been slain").data).isPrefixOf ((" has been slain.").data) = true := by
    decide
  have hext : extract_player_name_from_death (':' :: ' ' :: (X ++ (" has been slain.").data))
      = some X := by
    simp [extract_player_name_from_death, htake, List.drop_left, hne, hpre]
  have hcc : parse_chat_channel (':' :: ' ' :: (X ++ (" has been slain.").data)) = none := by
    simp [parse_chat_channel]
  refine ⟨hext, ?_, ?_⟩ <;> simp [classifyModel, hcc, hext]

theorem chat_prefix_classification_witness :
    classifyModel ('$' :: (("Ann").data ++ ':' :: ' ' :: ("hi").data))
        = ⟨Category.Chat ChatChannel.Global, none, some ("Ann").data, ("hi").data⟩
    ∧ classifyModel ('&' :: ':' :: ' ' :: ("hi").data)
        = ⟨Category.GuildSystem, none, none, ("hi").data⟩ := by
  have h := chat_prefix_classification ("Ann").data ("hi").data
    (by decide) (by decide) (by decide)
  exact ⟨h.1, h.2.2.2.1⟩

theorem death_extraction_witness :
    extract_player_name_from_death
        (':' :: ' ' :: (("Bob").data ++ (" has been slain.").data)) = some ("Bob").data
    ∧ (classifyModel
        (':' :: ' ' :: (("Bob").data ++ (" has been slain.").data))).category = Category.Death
    ∧ (classifyModel
        (':' :: ' ' :: (("Bob").data ++ (" has been slain.").data))).playerName
          = some ("Bob").data :=
  death_extraction_spec ("Bob").data (by decide) (by decide)

theorem handleLogEvent_mem {st : FrontendState} {e : LogEvent}
    (h : mkLogId e ∈ st.processedLogIds) : handleLogEvent st e = st := by
  unfold handleLogEvent
  rw [if_pos h]

theorem handleLogEvent_not_mem {st : FrontendState} {e : LogEvent}
    (h : mkLogId e ∉ st.processedLogIds) :
    handleLogEvent st e = ⟨mkLogId e :: st.processedLogIds, st.logs ++ [e]⟩ := by
  unfold handleLogEvent
  rw [if_neg h]

/-- C3: the dedup key is the timestamp, the category and the first 50
characters of the message joined together; within one unbroken session an
event whose key is already remembered is suppressed and leaves the state
unchanged, a fresh-keyed event is appended once and its key remembered, and
delivering the same event twice emits it exactly once. -/
theorem frontend_dedup_spec (st : FrontendState) (e : LogEvent) :
    mkLogId e = e.timestamp ++ "-" ++ e.category ++ "-" ++ (e.message.take 50)
    ∧ (mkLogId e ∈ st.processedLogIds → handleLogEvent st e = st)
    ∧ (mkLogId e ∉ st.processedLogIds →
        (handleLogEvent st e).logs = st.logs ++ [e]
        ∧ mkLogId e ∈ (handleLogEvent st e).processedLogIds
        ∧ (handleLogEvent (handleLogEvent st e) e).logs = st.logs ++ [e]) := by
  refine ⟨rfl, fun h => handleLogEvent_mem h, fun h => ?_⟩
  rw [handleLogEvent_not_mem h]
  refine ⟨rfl, List.mem_cons_self _ _, ?_⟩
  rw [handleLogEvent_mem (List.mem_cons_self _ _)]

theorem frontend_dedup_witness :
    (mkLogId ⟨"t", "c", "m", "r"⟩ ∉ (⟨[], []⟩ : FrontendState).processedLogIds)
    ∧ (handleLogEvent (handleLogEvent ⟨[], []⟩ ⟨"t", "c", "m", "r"⟩) ⟨"t", "c", "m", "r"⟩).logs
        = [⟨"t", "c", "m", "r"⟩] := by
  refine ⟨by decide, ?_⟩
  have h := (frontend_dedup_spec ⟨[], []⟩ ⟨"t", "c", "m", "r"⟩).2.2 (by decide)
  simpa using h.2.2

theorem processEvents_keys_invariant :
    ∀ (evs : List LogEvent) (st : FrontendState),
      (∀ k ∈ st.logs.map mkLogId, k ∈ st.processedLogIds) →
      (st.logs.map mkLogId).Nodup →
      ((processEvents st evs).logs.map mkLogId).Nodup
      ∧ (∀ k ∈ (processEvents st evs).logs.map mkLogId,
          k ∈ (processEvents st evs).processedLogIds) := by
  intro evs
  induction evs with
  | nil => intro st h1 h2; exact ⟨h2, h1⟩
  | cons e t ih =>
    intro st h1 h2
    have hstep : processEvents st (e :: t) = processEvents (handleLogEvent st e) t := rfl
    rw [hstep]
    by_cases hm : mkLogId e ∈ st.processedLogIds
    · rw [handleLogEvent_mem hm]
      exact ih st h1 h2
    · rw [handleLogEvent_not_mem hm]
      apply ih
      · intro k hk
        rw [List.mem_cons]
        simp only [List.map_append, List.map_cons, List.map_nil, List.mem_append,
          List.mem_cons, List.mem_singleton] at hk
        rcases hk with hk | hk | hk
        · exact Or.inr (h1 k hk)
        · exact Or.inl hk
        · exact absurd hk (List.not_mem_nil k)
      · simp only [List.map_append, List.map_cons, List.map_nil]
        rw [List.nodup_append]
        refine ⟨h2, List.nodup_singleton _, ?_⟩
        intro k hk
        simp only [List.mem_singleton]
        intro hek
        exact hm (hek ▸ h1 k hk)

/-- C9: explicitly selecting a file clears both the dedup key set and the
accumulated event list before the new session, so processing any event
stream from the reset state is identical to processing it from a brand-new
state (no key remembered from the previous session can suppress anything),
while within the new session's replay the emitted keys stay duplicate-free. -/
theorem pickFile_session_reset (st : FrontendState) (evs : List LogEvent) :
    (pickFileReset st).processedLogIds = []
    ∧ (pickFileReset st).logs = []
    ∧ processEvents (pickFileReset st) evs = processEvents ⟨[], []⟩ evs
    ∧ ((processEvents (pickFileReset st) evs).logs.map mkLogId).Nodup := by
  refine ⟨rfl, rfl, rfl, ?_⟩
  exact (processEvents_keys_invariant evs ⟨[], []⟩ (by simp) (by simp)).1

/-- C8: every serialized event carries the four required fields timestamp,
category, message and raw; each optional field key is present exactly when
its extraction succeeded (`isSome`); and no field of the payload is null. -/
theorem event_payload_spec (e : Plan.LogEvent) :
    ("timestamp" ∈ (serializeLogEvent e).map Prod.fst
      ∧ "category" ∈ (serializeLogEvent e).map Prod.fst
      ∧ "message" ∈ (serializeLogEvent e).map Prod.fst
      ∧ "raw" ∈ (serializeLogEvent e).map Prod.fst)
    ∧ (("player_name" ∈ (serializeLogEvent e).map Prod.fst) ↔ e.player_name.isSome = true)
    ∧ (("character_class" ∈ (serializeLogEvent e).map Prod.fst) ↔ e.character_class.isSome = true)
    ∧ (("level" ∈ (serializeLogEvent e).map Prod.fst) ↔ e.level.isSome = true)
    ∧ (("chat_channel" ∈ (serializeLogEvent e).map Prod.fst) ↔ e.chat_channel.isSome = true)
    ∧ (("chat_sender" ∈ (serializeLogEvent e).map Prod.fst) ↔ e.chat_sender.isSome = true)
    ∧ ((serializeLogEvent e).map Prod.snd).all (fun v => !(jsonIsNull v)) = true := by
  obtain ⟨t, c, m, r, pn, cc, lv, ch, cs⟩ := e
  cases pn <;> cases cc <;> cases lv <;> cases ch <;> cases cs <;>
    simp [serializeLogEvent, optField, jsonIsNull]

theorem dedupRun_nodup (keys : List String) :
    ∀ seen : List String,
      (dedupRun seen keys).1.Nodup ∧ (∀ k ∈ (dedupRun seen keys).1, k ∉ seen) := by
  induction keys with
  | nil => intro seen; simp [dedupRun]
  | cons k t ih =>
    intro seen
    unfold dedupRun
    by_cases hm : k ∈ seen
    · rw [if_pos hm]
      exact ih seen
    · rw [if_neg hm]
      obtain ⟨hnd, hns⟩ := ih (k :: seen)
      refine ⟨?_, ?_⟩
      · exact List.nodup_cons.mpr ⟨fun hk => (hns k hk) (List.mem_cons_self k seen), hnd⟩
      · intro x hx
        rcases List.mem_cons.mp hx with hx | hx
        · exact hx ▸ hm
        · exact fun hs => (hns x hx) (List.mem_cons_of_mem k hs)

/-- C7: when before a poll the file is smaller than the stored cursor, or its
fingerprint changed inconsistently with pure appension, the poll preparation
leaves cursor 0 and an empty dedup key set, the read resumes from the start
of the file, and replaying the whole file through the deduplicator emits
every line at most once (the emitted key sequence has no duplicate). -/
theorem truncation_reset_spec (s : WatchSession) (f : FileState)
    (h : f.size < s.cursor ∨ f.size < s.fpSize) :
    (pollPrepare s f).cursor = 0
    ∧ (pollPrepare s f).dedupKeys = []
    ∧ readFromCursor (pollPrepare s f) f = f.lines
    ∧ (dedupRun [] f.lines).1.Nodup := by
  have hb : sessionInconsistent s f = true := by
    unfold sessionInconsistent
    rcases h with h | h <;> simp [h]
  unfold pollPrepare
  rw [if_pos hb]
  exact ⟨rfl, rfl, rfl, (dedupRun_nodup f.lines []).1⟩

theorem truncation_reset_witness :
    (pollPrepare ⟨5, 10, 0, ["k"]⟩ ⟨3, 0, ["a", "b"]⟩).cursor = 0
    ∧ (pollPrepare ⟨5, 10, 0, ["k"]⟩ ⟨3, 0, ["a", "b"]⟩).dedupKeys = []
    ∧ readFromCursor (pollPrepare ⟨5, 10, 0, ["k"]⟩ ⟨3, 0, ["a", "b"]⟩) ⟨3, 0, ["a", "b"]⟩
        = ["a", "b"]
    ∧ (dedupRun [] ["a", "b"]).1.Nodup :=
  truncation_reset_spec ⟨5, 10, 0, ["k"]⟩ ⟨3, 0, ["a", "b"]⟩ (Or.inl (by decide))

/-- C6: the line parser is total with no error channel — for every input it
either recognizes the fixed token shape, or returns the `ParsedLine` whose
structured fields all hold their zero values and whose `message` is the
entire raw line, so no input is ever dropped. -/
theorem parser_total_degradation (raw : String) :
    (tryParse raw).isSome = true
    ∨ parse raw = ⟨"", 0, "", LogLevel.unknown, "", 0, none, raw⟩ := by
  cases h : tryParse raw with
  | some p => left; simp [h]
  | none =>
    right
    unfold parse
    rw [h]

theorem parse_sample_line :
    parse "2025/11/04 19:24:34 188191812 3ef232c2 [INFO Client 7776] : TomHanksIndexFinger (Mercenary) is now level 2"
      = ⟨"2025/11/04 19:24:34", 188191812, "3ef232c2", LogLevel.INFO, "Client", 7776, none,
         ": TomHanksIndexFinger (Mercenary) is now level 2"⟩ := by decide

theorem parse_sample_tagged :
    parse "2025/11/04 19:20:51 187969250 bf08f15c [INFO Client 7776] [Item Filter] Preparing to download"
      = ⟨"2025/11/04 19:20:51", 187969250, "bf08f15c", LogLevel.INFO, "Client", 7776,
         some "[Item Filter]", "Preparing to download"⟩ := by decide

theorem parse_garbage :
    parse "hello world" = ⟨"", 0, "", LogLevel.unknown, "", 0, none, "hello world"⟩ := by decide

theorem ruleMatches_iff (r : CategoryRule) (msg : String) :
    ruleMatches r msg = true ↔
      (∀ p ∈ r.required, containsPat msg p = true)
      ∧ (∀ p ∈ r.excluded, containsPat msg p = false)
      ∧ (r.anyOf ≠ [] → ∃ p ∈ r.anyOf, containsPat msg p = true)
      ∧ (∀ f, r.validator = some f → f msg = true) := by
  obtain ⟨n, pr, req, exc, anyOf, val⟩ := r
  unfold ruleMatches
  cases val with
  | none =>
    cases anyOf with
    | nil => simp [List.all_eq_true]
    | cons a t =>
      simp [List.all_eq_true, List.any_eq_true]
      tauto
  | some f =>
    cases anyOf with
    | nil =>
      simp [List.all_eq_true]
      tauto
    | cons a t =>
      simp [List.all_eq_true, List.any_eq_true]
      tauto

theorem decorate_snd_mem : ∀ (i : Nat) (l : List CategoryRule) (x : Nat × CategoryRule),
    x ∈ decorate i l → x.2 ∈ l := by
  intro i l
  induction l generalizing i with
  | nil => intro x hx; simp [decorate] at hx
  | cons r t ih =>
    intro x hx
    rcases List.mem_cons.mp hx with h | h
    · rw [h]; exact List.mem_cons_self r t
    · exact List.mem_cons_of_mem r (ih (i + 1) x h)

theorem decorate_fst_ge : ∀ (i : Nat) (l : List CategoryRule) (x : Nat × CategoryRule),
    x ∈ decorate i l → i ≤ x.1 := by
  intro i l
  induction l generalizing i with
  | nil => intro x hx; simp [decorate] at hx
  | cons r t ih =>
    intro x hx
    rcases List.mem_cons.mp hx with h | h
    · rw [h]
    · have := ih (i + 1) x h
      omega

theorem decorate_eq_of_fst_eq : ∀ (i : Nat) (l : List CategoryRule)
    (x y : Nat × CategoryRule), x ∈ decorate i l → y ∈ decorate i l → x.1 = y.1 → x = y := by
  intro i l
  induction l generalizing i with
  | nil => intro x y hx; simp [decorate] at hx
  | cons r t ih =>
    intro x y hx hy hf
    rcases List.mem_cons.mp hx with h1 | h1 <;> rcases List.mem_cons.mp hy with h2 | h2
    · rw [h1, h2]
    · have := decorate_fst_ge (i + 1) t y h2
      rw [h1] at hf
      omega
    · have := decorate_fst_ge (i + 1) t x h1
      rw [h2] at hf
      omega
    · exact ih (i + 1) x y h1 h2 hf

theorem find_first_min {α : Type} (p : α → Bool) (le : α → α → Prop) :
    ∀ (L : List α), L.Pairwise le → ∀ x ∈ L, p x = true →
      (∀ y ∈ L, p y = true → le x y) →
      (∀ y ∈ L, le x y → le y x → y = x) →
      L.find? p = some x := by
  intro L
  induction L with
  | nil => intro _ x hx; simp at hx
  | cons a t ih =>
    intro hpw x hx hpx hmin hanti
    cases hpa : p a with
    | true =>
      rw [List.find?_cons_of_pos _ hpa]
      rcases List.mem_cons.mp hx with h | h
      · rw [h]
      · have hax : le a x := (List.pairwise_cons.mp hpw).1 x h
        have hxa : le x a := hmin a (List.mem_cons_self a t) hpa
        rw [hanti a (List.mem_cons_self a t) hxa hax]
    | false =>
      rw [List.find?_cons_of_neg _ (by simp [hpa])]
      have hxt : x ∈ t := by
        rcases List.mem_cons.mp hx with h | h
        · rw [h] at hpx; rw [hpx] at hpa; exact absurd hpa (by simp)
        · exact h
      exact ih (List.pairwise_cons.mp hpw).2 x hxt hpx
        (fun y hy hpy => hmin y (List.mem_cons_of_mem a hy) hpy)
        (fun y hy h1 h2 => hanti y (List.mem_cons_of_mem a hy) h1 h2)

theorem classify_unknown (rules : List CategoryRule) (msg : String)
    (h : ∀ r ∈ rules, ruleMatches r msg = false) :
    classify rules msg = "Unknown" := by
  unfold classify
  have hfind : (sortedRules rules).find? (fun p => ruleMatches p.2 msg) = none := by
    rw [List.find?_eq_none]
    intro x hxL
    have hx : x ∈ decorate 0 rules :=
      ((List.perm_insertionSort engOrder (decorate 0 rules)).mem_iff).mp hxL
    have := h x.2 (decorate_snd_mem 0 rules x hx)
    simp [this]
  rw [hfind]

theorem classify_first_match (rules : List CategoryRule) (msg : String)
    (x : Nat × CategoryRule) (hx : x ∈ decorate 0 rules)
    (hm : ruleMatches x.2 msg = true)
    (hmin : ∀ y ∈ decorate 0 rules, ruleMatches y.2 msg = true → engOrder x y) :
    classify rules msg = x.2.name := by
  unfold classify
  have hperm := List.perm_insertionSort engOrder (decorate 0 rules)
  have hpw : (sortedRules rules).Pairwise engOrder :=
    List.sorted_insertionSort engOrder (decorate 0 rules)
  have hfind : (sortedRules rules).find? (fun p => ruleMatches p.2 msg) = some x := by
    apply find_first_min (fun p => ruleMatches p.2 msg) engOrder _ hpw x
    · exact hperm.mem_iff.mpr hx
    · exact hm
    · intro y hy hpy
      exact hmin y (hperm.mem_iff.mp hy) hpy
    · intro y hy h1 h2
      have hyd : y ∈ decorate 0 rules := hperm.mem_iff.mp hy
      apply decorate_eq_of_fst_eq 0 rules y x hyd hx
      unfold engOrder at h1 h2
      omega
  rw [hfind]

/-- C4: a rule matches exactly when every required pattern is present, no
excluded pattern is present, some anyOf pattern is present whenever that list
is non-empty, and the validator (when set) accepts; a line matching no rule
classifies Unknown (never dropped — `classify` is total); and when a match
exists, the matching rule minimal in (priority, declaration order) names the
category. -/
theorem category_engine_spec (rules : List CategoryRule) (msg : String) :
    (∀ r : CategoryRule, ruleMatches r msg = true ↔
      (∀ p ∈ r.required, containsPat msg p = true)
      ∧ (∀ p ∈ r.excluded, containsPat msg p = false)
      ∧ (r.anyOf ≠ [] → ∃ p ∈ r.anyOf, containsPat msg p = true)
      ∧ (∀ f, r.validator = some f → f msg = true))
    ∧ ((∀ r ∈ rules, ruleMatches r msg = false) → classify rules msg = "Unknown")
    ∧ (∀ x ∈ decorate 0 rules, ruleMatches x.2 msg = true →
        (∀ y ∈ decorate 0 rules, ruleMatches y.2 msg = true → engOrder x y) →
        classify rules msg = x.2.name) :=
  ⟨fun r => ruleMatches_iff r msg,
   fun h => classify_unknown rules msg h,
   fun x hx hm hmin => classify_first_match rules msg x hx hm hmin⟩

theorem category_engine_witness :
    classify [wRuleDeath, wRuleNetwork] "Connected to login server" = "Network" := by
  have hx : ((1 : Nat), wRuleNetwork) ∈ decorate 0 [wRuleDeath, wRuleNetwork] := by
    simp [decorate]
  have hmin : ∀ y ∈ decorate 0 [wRuleDeath, wRuleNetwork],
      ruleMatches y.2 "Connected to login server" = true → engOrder (1, wRuleNetwork) y := by
    intro y hy
    simp [decorate] at hy
    rcases hy with h | h <;> subst h
    · intro hm
      exact absurd hm (by decide)
    · intro _
      right
      exact ⟨rfl, le_refl 1⟩
  exact (category_engine_spec [wRuleDeath, wRuleNetwork] "Connected to login server").2.2
    (1, wRuleNetwork) hx (by decide) hmin
